import Mathlib

/-
Verification development for the pg-transactional-outbox relay core.

The embedding models the outbox table as a list of rows and each SQL
statement of PostgresOutboxRepository (src/adapters/persistence, file
part_011) as a pure function on that list.  A conditional UPDATE
"SET ... WHERE p" is modelled as a map that rewrites exactly the rows
satisfying p and a row count countP p; the driver's rowCount is that
count, and the TypeScript functions returning (rowCount ?? 0) > 0 are
modelled as returning that comparison.  NOW() is passed explicitly as a
natural-number instant.  SQL three-valued logic on nullable columns is
reflected by Option: a comparison with a NULL column is never satisfied,
so for example "lock_token = $2" is rendered as lockToken = some tok.
UPDATE ... RETURNING * is modelled as yielding the updated versions of
the affected rows in the table's physical order: PostgreSQL does not
guarantee that RETURNING follows the inner SELECT's ORDER BY, and the
code does not re-sort the returned rows.
-/

namespace PgOutbox

/-- Status enum of the outbox table, literal strings in the schema. -/
inductive EventStatus where
  | PENDING
  | PROCESSING
  | COMPLETED
  | FAILED
  | DEAD_LETTER
deriving DecidableEq, Repr

/-- One row of the outbox table, fields as in the schema and in
OutboxEvent.  Instants are naturals, documents are strings (opaque to
the core), nullable columns are Option. -/
structure Row where
  id : Nat
  trackingId : String
  aggregateId : String
  aggregateType : String
  eventType : String
  payload : String
  metadata : String
  status : EventStatus
  retryCount : Nat
  maxRetries : Nat
  createdAt : Nat
  processedAt : Option Nat
  lockedUntil : Option Nat
  lockToken : Option Nat
  lastError : Option String
deriving DecidableEq, Repr

abbrev Table := List Row

/-- A conditional UPDATE: rewrite the rows satisfying p with u, leave
the rest; the first component is the affected row count (the driver's
rowCount). -/
def updWhere (p : Row → Bool) (u : Row → Row) (table : Table) : Nat × Table :=
  (table.countP p, table.map (fun r => if p r then u r else r))

/-- Predicate of claimBatch's inner SELECT:
status IN ('PENDING','FAILED') AND (locked_until IS NULL OR locked_until < NOW()). -/
def claimEligible (now : Nat) (r : Row) : Bool :=
  (r.status == .PENDING || r.status == .FAILED) &&
    (match r.lockedUntil with
     | none => true
     | some t => decide (t < now))

/-- ORDER BY created_at (ascending). -/
def createdLE (a b : Row) : Prop := a.createdAt ≤ b.createdAt

instance : DecidableRel createdLE := fun a b => Nat.decLe a.createdAt b.createdAt

instance : IsTotal Row createdLE := ⟨fun a b => Nat.le_total a.createdAt b.createdAt⟩

instance : IsTrans Row createdLE := ⟨fun _ _ _ hab hbc => Nat.le_trans hab hbc⟩

/-- SET clause of claimBatch: status = 'PROCESSING',
locked_until = NOW() + lease seconds, lock_token = $3. -/
def applyClaim (now leaseSeconds lockToken : Nat) (r : Row) : Row :=
  { r with
    status := .PROCESSING
    lockedUntil := some (now + leaseSeconds)
    lockToken := some lockToken }

/-- Inner SELECT of claimBatch: eligible rows ordered by created_at,
LIMIT batchSize. -/
def claimSelected (now batchSize : Nat) (table : Table) : List Row :=
  (List.insertionSort createdLE (table.filter (claimEligible now))).take batchSize

/-- PostgresOutboxRepository.claimBatch: the inner SELECT picks at most
batchSize eligible rows ordered by created_at, the UPDATE rewrites
exactly those rows, RETURNING * yields the updated rows.  Returns the
new table and the returned rows; the returned rows come back in the
table's physical order, since PostgreSQL leaves the output order of
UPDATE ... RETURNING unspecified (it does not inherit the inner
SELECT's ORDER BY) and the code performs no re-sort. -/
def claimBatch (now batchSize leaseSeconds lockToken : Nat) (table : Table) :
    Table × List Row :=
  let ids := (claimSelected now batchSize table).map (fun r => r.id)
  let updated :=
    (updWhere (fun r => ids.contains r.id) (applyClaim now leaseSeconds lockToken) table).2
  (updated, updated.filter (fun r => ids.contains r.id))

/-- WHERE id = $1 AND lock_token = $2 (NULL lock_token never matches). -/
def tokenMatch (id lockToken : Nat) (r : Row) : Bool :=
  r.id == id && r.lockToken == some lockToken

/-- SET clause of markCompleted. -/
def applyCompleted (now : Nat) (r : Row) : Row :=
  { r with
    status := .COMPLETED
    processedAt := some now
    lockedUntil := none
    lockToken := none }

/-- PostgresOutboxRepository.markCompleted. -/
def markCompleted (now id lockToken : Nat) (table : Table) : Bool × Table :=
  let res := updWhere (tokenMatch id lockToken) (applyCompleted now) table
  (decide (0 < res.1), res.2)

/-- SET clause of markFailed. -/
def applyFailed (err : String) (r : Row) : Row :=
  { r with
    status := .FAILED
    retryCount := r.retryCount + 1
    lastError := some err
    lockedUntil := none
    lockToken := none }

/-- PostgresOutboxRepository.markFailed. -/
def markFailed (id lockToken : Nat) (err : String) (table : Table) : Bool × Table :=
  let res := updWhere (tokenMatch id lockToken) (applyFailed err) table
  (decide (0 < res.1), res.2)

/-- SET clause of markDeadLetter. -/
def applyDeadLetter (now : Nat) (err : String) (r : Row) : Row :=
  { r with
    status := .DEAD_LETTER
    lastError := some err
    processedAt := some now
    lockedUntil := none
    lockToken := none }

/-- PostgresOutboxRepository.markDeadLetter. -/
def markDeadLetter (now id lockToken : Nat) (err : String) (table : Table) :
    Bool × Table :=
  let res := updWhere (tokenMatch id lockToken) (applyDeadLetter now err) table
  (decide (0 < res.1), res.2)

/-- PostgresOutboxRepository.renewLease:
WHERE id = $1 AND lock_token = $2 AND status = 'PROCESSING'. -/
def renewLease (now id lockToken leaseSeconds : Nat) (table : Table) : Bool × Table :=
  let res := updWhere
    (fun r => tokenMatch id lockToken r && r.status == .PROCESSING)
    (fun r => { r with lockedUntil := some (now + leaseSeconds) })
    table
  (decide (0 < res.1), res.2)

/-- WHERE status = 'PROCESSING' AND locked_until < NOW(). -/
def staleAt (now : Nat) (r : Row) : Bool :=
  r.status == .PROCESSING &&
    (match r.lockedUntil with
     | none => false
     | some t => decide (t < now))

/-- SET clause of recoverStaleEvents. -/
def applyRecover (r : Row) : Row :=
  { r with status := .PENDING, lockedUntil := none, lockToken := none }

/-- PostgresOutboxRepository.recoverStaleEvents; returns the row count. -/
def recoverStaleEvents (now : Nat) (table : Table) : Nat × Table :=
  updWhere (staleAt now) applyRecover table

/-- SET clause shared by redriveByEventType and redriveById. -/
def applyRedrive (r : Row) : Row :=
  { r with
    status := .PENDING
    retryCount := 0
    lastError := none
    lockedUntil := none
    lockToken := none }

/-- PostgresOutboxRepository.redriveByEventType. -/
def redriveByEventType (etype : String) (table : Table) : Nat × Table :=
  updWhere (fun r => r.status == .DEAD_LETTER && r.eventType == etype) applyRedrive table

/-- PostgresOutboxRepository.redriveById. -/
def redriveById (id : Nat) (table : Table) : Bool × Table :=
  let res := updWhere (fun r => r.id == id && r.status == .DEAD_LETTER) applyRedrive table
  (decide (0 < res.1), res.2)

/-- Column values supplied to the INSERT of PostgresOutboxRepository.insert
(id, created_at are server-assigned; processed_at, locked_until,
lock_token, last_error are not in the column list and default to NULL). -/
structure InsertEvent where
  trackingId : String
  aggregateId : String
  aggregateType : String
  eventType : String
  payload : String
  metadata : String
  status : EventStatus
  retryCount : Nat
  maxRetries : Nat
deriving DecidableEq, Repr

/-- PostgresOutboxRepository.insert: append the new row; newId is the
server-assigned id and now the server-assigned created_at. -/
def insert (now newId : Nat) (e : InsertEvent) (table : Table) : Table :=
  table ++ [{
    id := newId
    trackingId := e.trackingId
    aggregateId := e.aggregateId
    aggregateType := e.aggregateType
    eventType := e.eventType
    payload := e.payload
    metadata := e.metadata
    status := e.status
    retryCount := e.retryCount
    maxRetries := e.maxRetries
    createdAt := now
    processedAt := none
    lockedUntil := none
    lockToken := none
    lastError := none }]

/-! Generic lemmas about the conditional-update combinator. -/

theorem updWhere_length (p : Row → Bool) (u : Row → Row) (table : Table) :
    (updWhere p u table).2.length = table.length := by
  simp [updWhere]

theorem mem_updWhere_of_not (p : Row → Bool) (u : Row → Row) {table : Table}
    {r : Row} (hr : r ∈ table) (hp : p r = false) : r ∈ (updWhere p u table).2 := by
  have : (if p r then u r else r) ∈ (updWhere p u table).2 := by
    simp only [updWhere]
    exact List.mem_map_of_mem _ hr
  simpa [hp] using this

theorem mem_updWhere_of (p : Row → Bool) (u : Row → Row) {table : Table}
    {r : Row} (hr : r ∈ table) (hp : p r = true) : u r ∈ (updWhere p u table).2 := by
  have : (if p r then u r else r) ∈ (updWhere p u table).2 := by
    simp only [updWhere]
    exact List.mem_map_of_mem _ hr
  simpa [hp] using this

theorem mem_updWhere (p : Row → Bool) (u : Row → Row) {table : Table}
    {q : Row} (hq : q ∈ (updWhere p u table).2) :
    ∃ r ∈ table, q = if p r then u r else r := by
  simp only [updWhere, List.mem_map] at hq
  obtain ⟨r, hr, hrq⟩ := hq
  exact ⟨r, hr, hrq.symm⟩

theorem updWhere_eq_self (p : Row → Bool) (u : Row → Row) {table : Table}
    (h : ∀ r ∈ table, p r = false) : (updWhere p u table).2 = table := by
  simp only [updWhere]
  have : ∀ r ∈ table, (if p r then u r else r) = id r := by
    intro r hr
    simp [h r hr]
  rw [List.map_congr_left this, List.map_id]

theorem updWhere_count_pos (p : Row → Bool) (u : Row → Row) (table : Table) :
    0 < (updWhere p u table).1 ↔ ∃ r ∈ table, p r = true := by
  simp [updWhere, List.countP_pos_iff]

theorem updWhere_count_eq_zero (p : Row → Bool) (u : Row → Row) {table : Table}
    (h : ∀ r ∈ table, p r = false) : (updWhere p u table).1 = 0 := by
  simp only [updWhere]
  exact List.countP_eq_zero.2 (by simpa using h)

theorem updWhere_map_id (p : Row → Bool) (u : Row → Row) {table : Table}
    (hid : ∀ r, (u r).id = r.id) :
    (updWhere p u table).2.map (fun r => r.id) = table.map (fun r => r.id) := by
  simp only [updWhere, List.map_map]
  apply List.map_congr_left
  intro r _
  by_cases hp : p r <;> simp [hp, hid]

/-- With the primary key unique, rows of the table are determined by
their id. -/
theorem row_eq_of_id_eq {table : Table} (hids : (table.map (fun r => r.id)).Nodup)
    {a b : Row} (ha : a ∈ table) (hb : b ∈ table) (h : a.id = b.id) : a = b :=
  List.inj_on_of_nodup_map hids ha hb h

/-! ### C2: markFailed -/

/-- Helper: under unique ids there is at most one row matched by the
id/lock_token guard, so a positive row count means exactly one. -/
theorem tokenMatch_filter_length {table : Table}
    (hids : (table.map (fun r => r.id)).Nodup) (id lockToken : Nat)
    (h : ∃ r ∈ table, tokenMatch id lockToken r = true) :
    (table.filter (tokenMatch id lockToken)).length = 1 := by
  obtain ⟨r, hr, hm⟩ := h
  have hmem : r ∈ table.filter (tokenMatch id lockToken) := List.mem_filter.2 ⟨hr, hm⟩
  have huniq : ∀ a ∈ table.filter (tokenMatch id lockToken), a = r := by
    intro a ha
    obtain ⟨ha₁, ha₂⟩ := List.mem_filter.1 ha
    apply row_eq_of_id_eq hids ha₁ hr
    have h₁ : a.id = id := by
      have := ha₂
      simp only [tokenMatch, Bool.and_eq_true, beq_iff_eq] at this
      exact this.1
    have h₂ : r.id = id := by
      have := hm
      simp only [tokenMatch, Bool.and_eq_true, beq_iff_eq] at this
      exact this.1
    rw [h₁, h₂]
  have hnd : (table.filter (tokenMatch id lockToken)).Nodup :=
    (hids.of_map _).filter _
  match hl : table.filter (tokenMatch id lockToken), hnd, hmem, huniq with
  | [], _, hmem, _ => exact absurd hmem (List.not_mem_nil r)
  | [a], _, _, _ => rfl
  | a :: b :: t, hnd, _, huniq =>
    have hab : a = b := by
      rw [huniq a (by simp), huniq b (by simp)]
    have : a ∉ b :: t := (List.nodup_cons.1 hnd).1
    exact absurd (hab ▸ List.mem_cons_self b t) this

theorem tokenMatch_true_iff (id lockToken : Nat) (r : Row) :
    tokenMatch id lockToken r = true ↔ r.id = id ∧ r.lockToken = some lockToken := by
  simp [tokenMatch]

theorem tokenMatch_false_of (id lockToken : Nat) (r : Row)
    (h : r.id ≠ id ∨ r.lockToken ≠ some lockToken) :
    tokenMatch id lockToken r = false := by
  rcases h with h | h <;> simp [tokenMatch, h]

/-- C2: MarkFailed(id, lock_token, error) returns true iff exactly one
row has that id with that lock_token; on success that row becomes
FAILED with retry_count incremented, last_error recorded and the lease
fields cleared, every other row is unchanged; when the token does not
match the row holding the id, no row changes at all. -/
theorem markFailed_correct (id lockToken : Nat) (err : String) (table : Table)
    (hids : (table.map (fun r => r.id)).Nodup) :
    ((markFailed id lockToken err table).1 = true ↔
      ∃ r ∈ table, r.id = id ∧ r.lockToken = some lockToken) ∧
    ((markFailed id lockToken err table).1 = true →
      (table.filter (tokenMatch id lockToken)).length = 1) ∧
    (∀ r ∈ table, r.id = id → r.lockToken = some lockToken →
      (markFailed id lockToken err table).1 = true ∧
      { r with
        status := .FAILED
        retryCount := r.retryCount + 1
        lastError := some err
        lockedUntil := none
        lockToken := none } ∈ (markFailed id lockToken err table).2) ∧
    (∀ r ∈ table, (r.id ≠ id ∨ r.lockToken ≠ some lockToken) →
      r ∈ (markFailed id lockToken err table).2) ∧
    ((∀ r ∈ table, r.id = id → r.lockToken ≠ some lockToken) →
      (markFailed id lockToken err table).2 = table) := by
  have hbool : (markFailed id lockToken err table).1 = true ↔
      ∃ r ∈ table, tokenMatch id lockToken r = true := by
    simp only [markFailed]
    rw [decide_eq_true_iff]
    exact updWhere_count_pos _ _ _
  refine ⟨?_, ?_, ?_, ?_, ?_⟩
  · rw [hbool]
    constructor
    · rintro ⟨r, hr, hm⟩
      exact ⟨r, hr, (tokenMatch_true_iff id lockToken r).1 hm⟩
    · rintro ⟨r, hr, h₁, h₂⟩
      exact ⟨r, hr, (tokenMatch_true_iff id lockToken r).2 ⟨h₁, h₂⟩⟩
  · intro hok
    exact tokenMatch_filter_length hids id lockToken (hbool.1 hok)
  · intro r hr h₁ h₂
    have hm : tokenMatch id lockToken r = true :=
      (tokenMatch_true_iff id lockToken r).2 ⟨h₁, h₂⟩
    refine ⟨hbool.2 ⟨r, hr, hm⟩, ?_⟩
    have := mem_updWhere_of (tokenMatch id lockToken) (applyFailed err) hr hm
    simpa [markFailed, applyFailed] using this
  · intro r hr h
    have hm : tokenMatch id lockToken r = false := tokenMatch_false_of id lockToken r h
    have := mem_updWhere_of_not (tokenMatch id lockToken) (applyFailed err) hr hm
    simpa [markFailed] using this
  · intro h
    have hall : ∀ r ∈ table, tokenMatch id lockToken r = false := by
      intro r hr
      by_cases hid : r.id = id
      · exact tokenMatch_false_of id lockToken r (Or.inr (h r hr hid))
      · exact tokenMatch_false_of id lockToken r (Or.inl hid)
    have := updWhere_eq_self (tokenMatch id lockToken) (applyFailed err) hall
    simpa [markFailed] using this

/-- Sample processing row holding lock token 7, used by witnesses. -/
def sampleHeldRow : Row :=
  { id := 1
    trackingId := "t1"
    aggregateId := "agg"
    aggregateType := "Order"
    eventType := "OrderCreated"
    payload := "p"
    metadata := "m"
    status := .PROCESSING
    retryCount := 0
    maxRetries := 5
    createdAt := 0
    processedAt := none
    lockedUntil := some 10
    lockToken := some 7
    lastError := none }

/-- Witness for C2 at a concrete one-row table. -/
theorem markFailed_correct_witness :
    (markFailed 1 7 "boom" [sampleHeldRow]).1 = true ∧
    { sampleHeldRow with
      status := .FAILED
      retryCount := sampleHeldRow.retryCount + 1
      lastError := some "boom"
      lockedUntil := none
      lockToken := none } ∈ (markFailed 1 7 "boom" [sampleHeldRow]).2 :=
  (markFailed_correct 1 7 "boom" [sampleHeldRow] (by decide)).2.2.1
    sampleHeldRow (List.mem_singleton.2 rfl) rfl rfl

/-! ### C5: recoverStaleEvents -/

theorem staleAt_true_iff (now : Nat) (r : Row) :
    staleAt now r = true ↔
      r.status = .PROCESSING ∧ ∃ t, r.lockedUntil = some t ∧ t < now := by
  cases h : r.lockedUntil <;> simp [staleAt, h]

/-- C5: RecoverStaleEvents returns exactly PROCESSING rows whose lease
deadline passed to PENDING, clearing only the lease fields (retry_count
and all other columns preserved), leaves every other row unchanged, and
returns the number of recovered rows. -/
theorem recoverStaleEvents_correct (now : Nat) (table : Table) :
    ((recoverStaleEvents now table).1 =
      (table.filter (fun r =>
        decide (r.status = .PROCESSING ∧ ∃ t, r.lockedUntil = some t ∧ t < now))).length) ∧
    (∀ r ∈ table, r.status = .PROCESSING → ∀ t, r.lockedUntil = some t → t < now →
      { r with status := .PENDING, lockedUntil := none, lockToken := none } ∈
        (recoverStaleEvents now table).2) ∧
    (∀ r ∈ table,
      (r.status ≠ .PROCESSING ∨ r.lockedUntil = none ∨
        (∃ t, r.lockedUntil = some t ∧ now ≤ t)) →
      r ∈ (recoverStaleEvents now table).2) ∧
    ((recoverStaleEvents now table).2.length = table.length) := by
  refine ⟨?_, ?_, ?_, ?_⟩
  · show table.countP (staleAt now) = _
    rw [List.countP_eq_length_filter]
    congr 1
    apply List.filter_congr
    intro r _
    rw [Bool.eq_iff_iff, staleAt_true_iff, decide_eq_true_iff]
  · intro r hr hst t hlt hnow
    have hp : staleAt now r = true := (staleAt_true_iff now r).2 ⟨hst, t, hlt, hnow⟩
    have := mem_updWhere_of (staleAt now) applyRecover hr hp
    simpa [recoverStaleEvents, applyRecover] using this
  · intro r hr h
    have hp : staleAt now r = false := by
      rw [Bool.eq_false_iff]
      intro hc
      obtain ⟨hst, t, hlt, hnow⟩ := (staleAt_true_iff now r).1 hc
      rcases h with h | h | ⟨u, hu, hle⟩
      · exact h hst
      · rw [h] at hlt
        exact Option.noConfusion hlt
      · rw [hu] at hlt
        have : u = t := Option.some_injective _ hlt
        omega
    exact mem_updWhere_of_not (staleAt now) applyRecover hr hp
  · exact updWhere_length _ _ _

/-- Sample stale row: PROCESSING with an expired lease. -/
def sampleStaleRow : Row :=
  { sampleHeldRow with id := 2, lockedUntil := some 5 }

/-- Witness for C5: at now = 10 the stale row is recovered. -/
theorem recoverStaleEvents_correct_witness :
    { sampleStaleRow with
      status := EventStatus.PENDING
      lockedUntil := none
      lockToken := none } ∈ (recoverStaleEvents 10 [sampleStaleRow]).2 :=
  (recoverStaleEvents_correct 10 [sampleStaleRow]).2.1 sampleStaleRow
    (List.mem_singleton.2 rfl) rfl 5 rfl (by decide)

/-! ### C4: the lease-field invariant -/

/-- Row form of schema invariant 1: a row is PROCESSING iff both lease
fields are set. -/
def rowLeaseInv (r : Row) : Prop :=
  r.status = .PROCESSING ↔ (r.lockedUntil ≠ none ∧ r.lockToken ≠ none)

instance (r : Row) : Decidable (rowLeaseInv r) := by
  unfold rowLeaseInv
  infer_instance

/-- Table form of schema invariant 1. -/
def leaseInvariant (table : Table) : Prop :=
  ∀ r ∈ table, rowLeaseInv r

instance (table : Table) : Decidable (leaseInvariant table) :=
  List.decidableBAll rowLeaseInv table

theorem updWhere_preserves_leaseInv {p : Row → Bool} {u : Row → Row}
    (hU : ∀ r, p r = true → rowLeaseInv r → rowLeaseInv (u r))
    {table : Table} (hInv : leaseInvariant table) :
    leaseInvariant (updWhere p u table).2 := by
  intro q hq
  obtain ⟨r, hr, hrq⟩ := mem_updWhere p u hq
  by_cases hp : p r
  · rw [hrq, if_pos hp]
    exact hU r hp (hInv r hr)
  · rw [hrq, if_neg hp]
    exact hInv r hr

theorem rowLeaseInv_applyClaim (now leaseSeconds lockToken : Nat) (r : Row) :
    rowLeaseInv (applyClaim now leaseSeconds lockToken r) := by
  simp [rowLeaseInv, applyClaim]

theorem rowLeaseInv_cleared {r : Row} (hs : r.status ≠ .PROCESSING)
    (hl : r.lockedUntil = none) (_ : r.lockToken = none) : rowLeaseInv r := by
  unfold rowLeaseInv
  rw [hl]
  simp [hs]

/-- C4 (amended): every repository operation except insert preserves the
invariant "status = PROCESSING iff both lease fields are set"
unconditionally; insert preserves it provided the inserted event's
status is not PROCESSING.  (The insert statement writes event.status
verbatim while the lease columns are not in its column list and default
to NULL, so inserting a PROCESSING-status event breaks the invariant —
see the counterexample.) -/
theorem repoOps_preserve_leaseInvariant
    (now batchSize leaseSeconds lockToken id newId : Nat)
    (err etype : String) (e : InsertEvent) (table : Table)
    (hInv : leaseInvariant table) :
    leaseInvariant (claimBatch now batchSize leaseSeconds lockToken table).1 ∧
    leaseInvariant (markCompleted now id lockToken table).2 ∧
    leaseInvariant (markFailed id lockToken err table).2 ∧
    leaseInvariant (markDeadLetter now id lockToken err table).2 ∧
    leaseInvariant (renewLease now id lockToken leaseSeconds table).2 ∧
    leaseInvariant (recoverStaleEvents now table).2 ∧
    leaseInvariant (redriveByEventType etype table).2 ∧
    leaseInvariant (redriveById id table).2 ∧
    (e.status ≠ .PROCESSING → leaseInvariant (insert now newId e table)) := by
  refine ⟨?_, ?_, ?_, ?_, ?_, ?_, ?_, ?_, ?_⟩
  · exact updWhere_preserves_leaseInv
      (fun r _ _ => rowLeaseInv_applyClaim now leaseSeconds lockToken r) hInv
  · exact updWhere_preserves_leaseInv
      (fun r _ _ => rowLeaseInv_cleared (by simp [applyCompleted]) rfl rfl) hInv
  · exact updWhere_preserves_leaseInv
      (fun r _ _ => rowLeaseInv_cleared (by simp [applyFailed]) rfl rfl) hInv
  · exact updWhere_preserves_leaseInv
      (fun r _ _ => rowLeaseInv_cleared (by simp [applyDeadLetter]) rfl rfl) hInv
  · apply updWhere_preserves_leaseInv ?_ hInv
    intro r hp hr
    simp only [Bool.and_eq_true, beq_iff_eq, tokenMatch] at hp
    unfold rowLeaseInv at hr ⊢
    simp [hp.2, (hr.1 hp.2).2]
  · exact updWhere_preserves_leaseInv
      (fun r _ _ => rowLeaseInv_cleared (by simp [applyRecover]) rfl rfl) hInv
  · exact updWhere_preserves_leaseInv
      (fun r _ _ => rowLeaseInv_cleared (by simp [applyRedrive]) rfl rfl) hInv
  · exact updWhere_preserves_leaseInv
      (fun r _ _ => rowLeaseInv_cleared (by simp [applyRedrive]) rfl rfl) hInv
  · intro hst q hq
    rcases List.mem_append.1 hq with hq | hq
    · exact hInv q hq
    · have : q = _ := List.mem_singleton.1 hq
      rw [this]
      exact rowLeaseInv_cleared hst rfl rfl

/-- An insert payload carrying status PROCESSING, constructible via
OutboxEvent.reconstitute and passed through to the INSERT column list. -/
def processingInsertEvent : InsertEvent :=
  { trackingId := "t9"
    aggregateId := "agg"
    aggregateType := "Order"
    eventType := "OrderCreated"
    payload := "p"
    metadata := "m"
    status := .PROCESSING
    retryCount := 0
    maxRetries := 5 }

/-- Counterexample for C4 as stated: on the empty table (which satisfies
the invariant) inserting an event whose status field is PROCESSING
yields a table violating it, because the lease columns default to NULL. -/
theorem insert_breaks_leaseInvariant :
    leaseInvariant ([] : Table) ∧
    ¬ leaseInvariant (insert 0 1 processingInsertEvent []) := by
  constructor
  · intro r hr
    exact absurd hr (List.not_mem_nil r)
  · decide

/-- A PENDING insert payload. -/
def pendingInsertEvent : InsertEvent :=
  { processingInsertEvent with status := .PENDING }

/-- Witness for the amended C4 at a concrete table satisfying the
invariant. -/
theorem repoOps_preserve_leaseInvariant_witness :
    leaseInvariant (markCompleted 10 1 7 [sampleHeldRow]).2 ∧
    leaseInvariant (insert 10 2 pendingInsertEvent [sampleHeldRow]) :=
  ⟨(repoOps_preserve_leaseInvariant 10 1 1 7 1 2 "e" "t" pendingInsertEvent
      [sampleHeldRow] (by decide)).2.1,
   (repoOps_preserve_leaseInvariant 10 1 1 7 1 2 "e" "t" pendingInsertEvent
      [sampleHeldRow] (by decide)).2.2.2.2.2.2.2.2 (by decide)⟩

/-! ### C1: claimBatch -/

theorem mem_claimSelected {now batchSize : Nat} {table : Table} {s : Row}
    (hs : s ∈ claimSelected now batchSize table) :
    s ∈ table ∧ claimEligible now s = true :=
  List.mem_filter.1 ((List.mem_insertionSort createdLE).1 (List.mem_of_mem_take hs))

theorem sorted_claimSelected (now batchSize : Nat) (table : Table) :
    List.Sorted createdLE (claimSelected now batchSize table) :=
  (List.sorted_insertionSort createdLE _).sublist (List.take_sublist _ _)

theorem length_claimSelected (now batchSize : Nat) (table : Table) :
    (claimSelected now batchSize table).length =
      min batchSize (table.countP (claimEligible now)) := by
  simp [claimSelected, List.countP_eq_length_filter]

theorem claimSelected_complete {now batchSize : Nat} {table : Table} {r : Row}
    (hr : r ∈ table) (he : claimEligible now r = true)
    (hnot : r ∉ claimSelected now batchSize table) :
    (claimSelected now batchSize table).length = batchSize ∧
    ∀ s ∈ claimSelected now batchSize table, s.createdAt ≤ r.createdAt := by
  have hdef : claimSelected now batchSize table =
      (List.insertionSort createdLE (table.filter (claimEligible now))).take batchSize := rfl
  have hrs : r ∈ List.insertionSort createdLE (table.filter (claimEligible now)) :=
    (List.mem_insertionSort createdLE).2 (List.mem_filter.2 ⟨hr, he⟩)
  have hsp : List.Sorted createdLE
      (List.insertionSort createdLE (table.filter (claimEligible now))) :=
    List.sorted_insertionSort createdLE _
  have hsplit := List.take_append_drop batchSize
    (List.insertionSort createdLE (table.filter (claimEligible now)))
  have hrs2 : r ∈ (List.insertionSort createdLE (table.filter (claimEligible now))).take batchSize ++
      (List.insertionSort createdLE (table.filter (claimEligible now))).drop batchSize := by
    rw [hsplit]
    exact hrs
  have hrdrop : r ∈ (List.insertionSort createdLE (table.filter (claimEligible now))).drop batchSize := by
    rcases List.mem_append.1 hrs2 with h | h
    · rw [hdef] at hnot
      exact absurd h hnot
    · exact h
  have hsp2 : List.Pairwise createdLE
      ((List.insertionSort createdLE (table.filter (claimEligible now))).take batchSize ++
        (List.insertionSort createdLE (table.filter (claimEligible now))).drop batchSize) := by
    rw [hsplit]
    exact hsp
  constructor
  · have hpos : 0 < ((List.insertionSort createdLE (table.filter (claimEligible now))).drop batchSize).length :=
      List.length_pos.2 (List.ne_nil_of_mem hrdrop)
    rw [List.length_drop] at hpos
    rw [hdef, List.length_take]
    omega
  · intro s hs
    rw [hdef] at hs
    exact (List.pairwise_append.1 hsp2).2.2 s hs r hrdrop

/-- Two pending rows used by C1: physical table order [B, A] is the
reverse of created_at order. -/
def pendingRowA : Row :=
  { sampleHeldRow with
    id := 11, status := .PENDING, lockedUntil := none, lockToken := none, createdAt := 0 }

def pendingRowB : Row :=
  { pendingRowA with id := 12, createdAt := 1 }

/-- True membership test of the claimed id set. -/
theorem claimIds_contains_iff (now batchSize : Nat) (table : Table) (x : Nat) :
    (((claimSelected now batchSize table).map (fun r => r.id)).contains x = true) ↔
    ∃ s ∈ claimSelected now batchSize table, s.id = x := by
  rw [List.elem_iff]
  simp

/-- Filtering a conditional update by its own guard recovers the
updated rows in table order, when the update preserves the guard. -/
theorem filter_updWhere (p : Row → Bool) (u : Row → Row)
    (hpu : ∀ r, p (u r) = p r) (table : Table) :
    (updWhere p u table).2.filter p = (table.filter p).map u := by
  induction table with
  | nil => rfl
  | cons r t ih =>
    show ((if p r then u r else r) :: (updWhere p u t).2).filter p = _
    by_cases hp : p r = true
    · simp [hp, List.filter_cons, hpu, ih]
    · simp [hp, List.filter_cons, ih]

/-- The rows claimBatch returns are the updates of the table rows whose
id was selected, in table order. -/
theorem claimBatch_ret_eq (now batchSize leaseSeconds lockToken : Nat) (table : Table) :
    (claimBatch now batchSize leaseSeconds lockToken table).2 =
      (table.filter (fun r =>
        ((claimSelected now batchSize table).map (fun r => r.id)).contains r.id)).map
        (applyClaim now leaseSeconds lockToken) := by
  apply filter_updWhere
  intro r
  rfl

/-- Up to order, the returned rows are exactly the stamped selection of
the inner SELECT. -/
theorem claimBatch_ret_perm (now batchSize leaseSeconds lockToken : Nat) (table : Table)
    (hids : (table.map (fun r => r.id)).Nodup) :
    (claimBatch now batchSize leaseSeconds lockToken table).2.Perm
      ((claimSelected now batchSize table).map (applyClaim now leaseSeconds lockToken)) := by
  rw [claimBatch_ret_eq]
  apply List.Perm.map
  have hndt : table.Nodup := hids.of_map _
  have hnd₁ : (table.filter (fun r =>
      ((claimSelected now batchSize table).map (fun r => r.id)).contains r.id)).Nodup :=
    hndt.filter _
  have hnd₂ : (claimSelected now batchSize table).Nodup := by
    have hfil : (table.filter (claimEligible now)).Nodup := hndt.filter _
    have hsortnd : (List.insertionSort createdLE (table.filter (claimEligible now))).Nodup :=
      (List.perm_insertionSort createdLE _).nodup_iff.2 hfil
    exact hsortnd.sublist (List.take_sublist _ _)
  apply (List.perm_ext_iff_of_nodup hnd₁ hnd₂).2
  intro a
  rw [List.mem_filter]
  constructor
  · rintro ⟨hat, hac⟩
    obtain ⟨s, hs, hsid⟩ := (claimIds_contains_iff now batchSize table a.id).1 hac
    have : a = s := row_eq_of_id_eq hids hat (mem_claimSelected hs).1 hsid.symm
    rw [this]
    exact hs
  · intro ha
    exact ⟨(mem_claimSelected ha).1,
      (claimIds_contains_iff now batchSize table a.id).2 ⟨a, ha, rfl⟩⟩

/-- Counterexample for C1 as stated: with the physical table order
[later, earlier] both rows are claimed, and RETURNING hands them back
in table order — created_at 1 before created_at 0 — so the returned
list is not in created_at ascending order. -/
theorem claimBatch_claim_counterexample :
    ¬ List.Sorted createdLE (claimBatch 100 2 30 7 [pendingRowB, pendingRowA]).2 := by
  decide

/-- C1 (amended): ClaimBatch transitions exactly the eligible rows
chosen in created_at ascending order — at most batch_size of them, and
when an eligible row is left unclaimed the batch is full and holds only
rows of earlier-or-equal created_at — stamps each claimed row with
status PROCESSING, locked_until = now + lease_seconds and the given
lock token, leaves every other row unchanged, and returns exactly the
transitioned rows, though in an order the program does not guarantee to
be created_at-ascending (PostgreSQL leaves UPDATE ... RETURNING output
order unspecified and the code does not re-sort; the model returns
physical table order — see the counterexample). -/
theorem claimBatch_correct (now batchSize leaseSeconds lockToken : Nat) (table : Table)
    (hids : (table.map (fun r => r.id)).Nodup) :
    ((claimBatch now batchSize leaseSeconds lockToken table).2.length =
      min batchSize (table.countP (claimEligible now))) ∧
    ((claimBatch now batchSize leaseSeconds lockToken table).2.Perm
      ((claimSelected now batchSize table).map (applyClaim now leaseSeconds lockToken))) ∧
    (∀ q ∈ (claimBatch now batchSize leaseSeconds lockToken table).2,
      q.status = .PROCESSING ∧ q.lockedUntil = some (now + leaseSeconds) ∧
        q.lockToken = some lockToken) ∧
    (∀ q ∈ (claimBatch now batchSize leaseSeconds lockToken table).2,
      ∃ s ∈ table, claimEligible now s = true ∧
        q = applyClaim now leaseSeconds lockToken s) ∧
    (∀ q ∈ (claimBatch now batchSize leaseSeconds lockToken table).2,
      q ∈ (claimBatch now batchSize leaseSeconds lockToken table).1) ∧
    (∀ r ∈ table,
      (∀ q ∈ (claimBatch now batchSize leaseSeconds lockToken table).2, q.id ≠ r.id) →
      r ∈ (claimBatch now batchSize leaseSeconds lockToken table).1) ∧
    (∀ q ∈ (claimBatch now batchSize leaseSeconds lockToken table).1,
      q ∈ table ∨ ∃ s ∈ table, claimEligible now s = true ∧
        q = applyClaim now leaseSeconds lockToken s) ∧
    (∀ r ∈ table, claimEligible now r = true →
      (∀ q ∈ (claimBatch now batchSize leaseSeconds lockToken table).2, q.id ≠ r.id) →
      ((claimBatch now batchSize leaseSeconds lockToken table).2.length = batchSize ∧
        ∀ q ∈ (claimBatch now batchSize leaseSeconds lockToken table).2,
          q.createdAt ≤ r.createdAt)) := by
  have hperm := claimBatch_ret_perm now batchSize leaseSeconds lockToken table hids
  have hdef1 : (claimBatch now batchSize leaseSeconds lockToken table).1 =
      (updWhere
        (fun r => ((claimSelected now batchSize table).map (fun r => r.id)).contains r.id)
        (applyClaim now leaseSeconds lockToken) table).2 := rfl
  have hdef2 : (claimBatch now batchSize leaseSeconds lockToken table).2 =
      ((claimBatch now batchSize leaseSeconds lockToken table).1).filter
        (fun r =>
          ((claimSelected now batchSize table).map (fun r => r.id)).contains r.id) := rfl
  have hretmem : ∀ {q : Row},
      q ∈ (claimBatch now batchSize leaseSeconds lockToken table).2 ↔
      q ∈ (claimSelected now batchSize table).map (applyClaim now leaseSeconds lockToken) :=
    fun {_} => hperm.mem_iff
  refine ⟨?_, hperm, ?_, ?_, ?_, ?_, ?_, ?_⟩
  · rw [hperm.length_eq, List.length_map, length_claimSelected]
  · intro q hq
    obtain ⟨s, _, rfl⟩ := List.mem_map.1 (hretmem.1 hq)
    simp [applyClaim]
  · intro q hq
    obtain ⟨s, hs, rfl⟩ := List.mem_map.1 (hretmem.1 hq)
    obtain ⟨hst, hse⟩ := mem_claimSelected hs
    exact ⟨s, hst, hse, rfl⟩
  · intro q hq
    rw [hdef2] at hq
    exact List.mem_of_mem_filter hq
  · intro r hr hq
    rw [hdef1]
    apply mem_updWhere_of_not _ _ hr
    rw [Bool.eq_false_iff]
    intro hc
    obtain ⟨s, hs, hsid⟩ := (claimIds_contains_iff now batchSize table r.id).1 hc
    exact hq (applyClaim now leaseSeconds lockToken s)
      (hretmem.2 (List.mem_map_of_mem _ hs)) hsid
  · intro q hq
    rw [hdef1] at hq
    obtain ⟨r, hr, hrq⟩ := mem_updWhere _ _ hq
    by_cases hp : ((claimSelected now batchSize table).map (fun r => r.id)).contains r.id
    · right
      obtain ⟨s, hs, hsid⟩ := (claimIds_contains_iff now batchSize table r.id).1 hp
      obtain ⟨hst, hse⟩ := mem_claimSelected hs
      have hsr : s = r := row_eq_of_id_eq hids hst hr hsid
      rw [hrq, if_pos hp]
      exact ⟨r, hr, hsr ▸ hse, rfl⟩
    · left
      rw [hrq, if_neg hp]
      exact hr
  · intro r hr he hq
    have hnot : r ∉ claimSelected now batchSize table := by
      intro hmem
      exact hq (applyClaim now leaseSeconds lockToken r)
        (hretmem.2 (List.mem_map_of_mem _ hmem)) rfl
    obtain ⟨hlen, hle⟩ := claimSelected_complete hr he hnot
    constructor
    · rw [hperm.length_eq, List.length_map, hlen]
    · intro q hqm
      obtain ⟨s, hs, rfl⟩ := List.mem_map.1 (hretmem.1 hqm)
      exact hle s hs

/-- Witness for C1: claiming with batch size 1 from a two-row table
claims one stamped row. -/
theorem claimBatch_correct_witness :
    (claimBatch 100 1 30 7 [pendingRowA, pendingRowB]).2.length = 1 ∧
    ∀ q ∈ (claimBatch 100 1 30 7 [pendingRowA, pendingRowB]).2,
      q.status = EventStatus.PROCESSING ∧ q.lockedUntil = some (100 + 30) ∧
        q.lockToken = some 7 :=
  ⟨((claimBatch_correct 100 1 30 7 [pendingRowA, pendingRowB] (by decide)).1).trans
      (by decide),
   (claimBatch_correct 100 1 30 7 [pendingRowA, pendingRowB] (by decide)).2.2.1⟩

/-! ### C6: claim, complete, replay -/

theorem markCompleted_true_of {now id tok : Nat} {table : Table}
    (h : ∃ r ∈ table, r.id = id ∧ r.lockToken = some tok) :
    (markCompleted now id tok table).1 = true := by
  simp only [markCompleted, decide_eq_true_iff]
  obtain ⟨r, hr, h₁, h₂⟩ := h
  exact (updWhere_count_pos _ _ _).2 ⟨r, hr, (tokenMatch_true_iff id tok r).2 ⟨h₁, h₂⟩⟩

theorem markCompleted_noop {now id tok : Nat} {table : Table}
    (h : ∀ r ∈ table, tokenMatch id tok r = false) :
    markCompleted now id tok table = (false, table) := by
  have h₁ : (updWhere (tokenMatch id tok) (applyCompleted now) table).1 = 0 :=
    updWhere_count_eq_zero _ _ h
  have h₂ := updWhere_eq_self (tokenMatch id tok) (applyCompleted now) h
  simp only [markCompleted, h₁, h₂]
  rfl

/-- The claimed rows are present in the post-claim table: the returned
list is the post-claim table filtered by the claimed ids. -/
theorem claimBatch_claimed_mem {now batchSize leaseSeconds lockToken : Nat}
    {table : Table} {q : Row}
    (hq : q ∈ (claimBatch now batchSize leaseSeconds lockToken table).2) :
    q ∈ (claimBatch now batchSize leaseSeconds lockToken table).1 := by
  have hdef2 : (claimBatch now batchSize leaseSeconds lockToken table).2 =
      ((claimBatch now batchSize leaseSeconds lockToken table).1).filter
        (fun r =>
          ((claimSelected now batchSize table).map (fun r => r.id)).contains r.id) := rfl
  rw [hdef2] at hq
  exact List.mem_of_mem_filter hq

/-- Every row of the post-claim table carrying a claimed row's id is
that claimed (stamped) row. -/
theorem claimBatch_row_at_claimed_id {now batchSize leaseSeconds lockToken : Nat}
    {table : Table} (hids : (table.map (fun r => r.id)).Nodup) {q : Row}
    (hq : q ∈ (claimBatch now batchSize leaseSeconds lockToken table).2) :
    ∀ r ∈ (claimBatch now batchSize leaseSeconds lockToken table).1,
      r.id = q.id → r = q := by
  have hids1 : ((claimBatch now batchSize leaseSeconds lockToken table).1.map
      (fun r => r.id)).Nodup := by
    have hdef1 : (claimBatch now batchSize leaseSeconds lockToken table).1 =
        (updWhere
          (fun r => ((claimSelected now batchSize table).map (fun r => r.id)).contains r.id)
          (applyClaim now leaseSeconds lockToken) table).2 := rfl
    rw [hdef1, updWhere_map_id
      (fun r => ((claimSelected now batchSize table).map (fun r => r.id)).contains r.id)
      (applyClaim now leaseSeconds lockToken) (fun _ => rfl)]
    exact hids
  intro r hr hid
  exact row_eq_of_id_eq hids1 hr (claimBatch_claimed_mem hq) hid

/-- C6: an event claimed with token t is completed by the first
MarkCompleted(id, t) — it returns true and the row ends COMPLETED with
processed_at set and the lease fields null — and replaying
MarkCompleted with any token after the lease fields are cleared
returns false and leaves the table untouched. -/
theorem claimBatch_markCompleted_replay
    (now now₂ now₃ batchSize leaseSeconds lockToken tok₂ : Nat) (table : Table)
    (hids : (table.map (fun r => r.id)).Nodup) (q : Row)
    (hq : q ∈ (claimBatch now batchSize leaseSeconds lockToken table).2) :
    (markCompleted now₂ q.id lockToken
        (claimBatch now batchSize leaseSeconds lockToken table).1).1 = true ∧
    { q with
      status := .COMPLETED
      processedAt := some now₂
      lockedUntil := none
      lockToken := none } ∈
      (markCompleted now₂ q.id lockToken
        (claimBatch now batchSize leaseSeconds lockToken table).1).2 ∧
    markCompleted now₃ q.id tok₂
      (markCompleted now₂ q.id lockToken
        (claimBatch now batchSize leaseSeconds lockToken table).1).2 =
      (false,
        (markCompleted now₂ q.id lockToken
          (claimBatch now batchSize leaseSeconds lockToken table).1).2) := by
  have hqtok : q.lockToken = some lockToken := by
    have hq2 := hq
    rw [claimBatch_ret_eq] at hq2
    obtain ⟨s, _, rfl⟩ := List.mem_map.1 hq2
    rfl
  have hqmem := claimBatch_claimed_mem hq
  refine ⟨markCompleted_true_of ⟨q, hqmem, rfl, hqtok⟩, ?_, ?_⟩
  · have hm : tokenMatch q.id lockToken q = true :=
      (tokenMatch_true_iff q.id lockToken q).2 ⟨rfl, hqtok⟩
    have := mem_updWhere_of (tokenMatch q.id lockToken) (applyCompleted now₂) hqmem hm
    simpa [markCompleted, applyCompleted] using this
  · apply markCompleted_noop
    intro r hr
    have hr2 : r ∈ (updWhere (tokenMatch q.id lockToken) (applyCompleted now₂)
        (claimBatch now batchSize leaseSeconds lockToken table).1).2 := by
      simpa [markCompleted] using hr
    obtain ⟨r₁, hr₁, hr₁q⟩ := mem_updWhere _ _ hr2
    by_cases hidr : r.id = q.id
    · have hid₁ : r₁.id = r.id := by
        rw [hr₁q]
        by_cases hp : tokenMatch q.id lockToken r₁ = true
        · rw [if_pos hp]
          rfl
        · rw [if_neg hp]
      have hr₁eq : r₁ = q := claimBatch_row_at_claimed_id hids hq r₁ hr₁ (by rw [hid₁, hidr])
      have hp : tokenMatch q.id lockToken r₁ = true := by
        rw [hr₁eq]
        exact (tokenMatch_true_iff q.id lockToken q).2 ⟨rfl, hqtok⟩
      have hnone : r.lockToken = none := by
        rw [hr₁q, if_pos hp]
        rfl
      simp [tokenMatch, hnone]
    · simp [tokenMatch, hidr]

/-- Witness for C6 on a concrete claim of one pending row. -/
theorem claimBatch_markCompleted_replay_witness :
    (markCompleted 200 (applyClaim 100 30 7 pendingRowA).id 7
      (claimBatch 100 1 30 7 [pendingRowA]).1).1 = true :=
  (claimBatch_markCompleted_replay 100 200 300 1 30 7 9 [pendingRowA]
    (by decide) (applyClaim 100 30 7 pendingRowA) (by decide)).1

/-! ### C3: failure handling in the relay worker -/

/-- OutboxEvent.canRetry: retryCount strictly below maxRetries. -/
def canRetry (retryCount maxRetries : Nat) : Bool :=
  decide (retryCount < maxRetries)

/-- Which repository finalizer the failure path invoked. -/
inductive FailureAction where
  | markedFailed
  | deadLettered
deriving DecidableEq, Repr

/-- ProcessOutboxUseCase.handleFailure / OutboxWorker.handleFailure:
if the claimed event can retry, markFailed, else markDeadLetter. -/
def handleFailure (now lockToken : Nat) (ev : Row) (err : String) (table : Table) :
    FailureAction × Table :=
  if canRetry ev.retryCount ev.maxRetries then
    (.markedFailed, (markFailed ev.id lockToken err table).2)
  else
    (.deadLettered, (markDeadLetter now ev.id lockToken err table).2)

/-- Row at the disputed boundary: retry_count + 1 = max_retries. -/
def retryBoundaryRow : Row :=
  { sampleHeldRow with retryCount := 1, maxRetries := 2 }

/-- Counterexample for C3 as stated: with retry_count = 1 and
max_retries = 2 we have retry_count + 1 ≥ max_retries, so the claim
requires MarkDeadLetter, yet the code (canRetry: retryCount <
maxRetries) calls MarkFailed. -/
theorem handleFailure_claim_counterexample :
    (handleFailure 0 7 retryBoundaryRow "err" [retryBoundaryRow]).1 =
      FailureAction.markedFailed ∧
    retryBoundaryRow.maxRetries ≤ retryBoundaryRow.retryCount + 1 := by
  constructor
  · rfl
  · decide

/-- C3 (amended): a failed event is marked FAILED when its retry_count
at failure time is strictly below max_retries, and dead-lettered
exactly when retry_count ≥ max_retries; the finalizer applied to the
claimed row updates it accordingly. -/
theorem handleFailure_correct (now lockToken : Nat) (ev : Row) (err : String)
    (table : Table) :
    ((handleFailure now lockToken ev err table).1 = .markedFailed ↔
      ev.retryCount < ev.maxRetries) ∧
    ((handleFailure now lockToken ev err table).1 = .deadLettered ↔
      ev.maxRetries ≤ ev.retryCount) ∧
    (ev ∈ table → ev.lockToken = some lockToken → ev.retryCount < ev.maxRetries →
      { ev with
        status := .FAILED
        retryCount := ev.retryCount + 1
        lastError := some err
        lockedUntil := none
        lockToken := none } ∈ (handleFailure now lockToken ev err table).2) ∧
    (ev ∈ table → ev.lockToken = some lockToken → ev.maxRetries ≤ ev.retryCount →
      { ev with
        status := .DEAD_LETTER
        lastError := some err
        processedAt := some now
        lockedUntil := none
        lockToken := none } ∈ (handleFailure now lockToken ev err table).2) := by
  refine ⟨?_, ?_, ?_, ?_⟩
  · by_cases h : ev.retryCount < ev.maxRetries <;>
      simp [handleFailure, canRetry, h]
  · by_cases h : ev.retryCount < ev.maxRetries
    · have hn : ¬ ev.maxRetries ≤ ev.retryCount := by omega
      simp [handleFailure, canRetry, h, hn]
    · have hn : ev.maxRetries ≤ ev.retryCount := by omega
      simp [handleFailure, canRetry, h, hn]
  · intro hmem htok hlt
    have hm : tokenMatch ev.id lockToken ev = true :=
      (tokenMatch_true_iff ev.id lockToken ev).2 ⟨rfl, htok⟩
    have := mem_updWhere_of (tokenMatch ev.id lockToken) (applyFailed err) hmem hm
    simpa [handleFailure, canRetry, hlt, markFailed, applyFailed] using this
  · intro hmem htok hge
    have hm : tokenMatch ev.id lockToken ev = true :=
      (tokenMatch_true_iff ev.id lockToken ev).2 ⟨rfl, htok⟩
    have := mem_updWhere_of (tokenMatch ev.id lockToken) (applyDeadLetter now err) hmem hm
    simpa [handleFailure, canRetry, Nat.not_lt.2 hge, markDeadLetter, applyDeadLetter]
      using this

/-- Witness for the amended C3 at a retryable row and at an exhausted
row. -/
theorem handleFailure_correct_witness :
    ((handleFailure 0 7 sampleHeldRow "e" [sampleHeldRow]).1 = .markedFailed) ∧
    ((handleFailure 0 7 retryBoundaryRow "e" [retryBoundaryRow]).1 = .markedFailed) ∧
    { sampleHeldRow with
      status := EventStatus.FAILED
      retryCount := sampleHeldRow.retryCount + 1
      lastError := some "e"
      lockedUntil := none
      lockToken := none } ∈ (handleFailure 0 7 sampleHeldRow "e" [sampleHeldRow]).2 :=
  ⟨(handleFailure_correct 0 7 sampleHeldRow "e" [sampleHeldRow]).1.2 (by decide),
   (handleFailure_correct 0 7 retryBoundaryRow "e" [retryBoundaryRow]).1.2 (by decide),
   (handleFailure_correct 0 7 sampleHeldRow "e" [sampleHeldRow]).2.2.1
     (List.mem_singleton.2 rfl) rfl (by decide)⟩

/-! ### C7: consumer-side idempotency store (inbox table) -/

/-- One row of the inbox table. -/
structure InboxRecord where
  trackingId : String
  consumerId : String
  processedAt : Nat
deriving DecidableEq, Repr

/-- The unique (tracking_id, consumer_id) key already has a row. -/
def pairPresent (t c : String) (inbox : List InboxRecord) : Bool :=
  inbox.any (fun r => r.trackingId == t && r.consumerId == c)

/-- PostgresIdempotencyStore.markProcessed: INSERT ... ON CONFLICT
(tracking_id, consumer_id) DO NOTHING; true iff a row was inserted. -/
def markProcessed (now : Nat) (t c : String) (inbox : List InboxRecord) :
    Bool × List InboxRecord :=
  if pairPresent t c inbox then (false, inbox)
  else (true, inbox ++ [{ trackingId := t, consumerId := c, processedAt := now }])

/-- PostgresIdempotencyStore.isProcessed: EXISTS row with the
tracking_id. -/
def isProcessed (t : String) (inbox : List InboxRecord) : Bool :=
  inbox.any (fun r => r.trackingId == t)

/-- Harness for the exactly-one-success law: n successive markProcessed
calls for the same pair; returns how many reported true and the final
store. -/
def markProcessedRepeat (now : Nat) (t c : String) :
    Nat → List InboxRecord → Nat × List InboxRecord
  | 0, s => (0, s)
  | Nat.succ n, s =>
    let step := markProcessed now t c s
    let remainder := markProcessedRepeat now t c n step.2
    ((if step.1 then 1 else 0) + remainder.1, remainder.2)

theorem markProcessed_of_present {now : Nat} {t c : String}
    {inbox : List InboxRecord} (h : pairPresent t c inbox = true) :
    markProcessed now t c inbox = (false, inbox) := by
  simp [markProcessed, h]

theorem markProcessedRepeat_of_present {now : Nat} {t c : String}
    {inbox : List InboxRecord} (h : pairPresent t c inbox = true) :
    ∀ n, markProcessedRepeat now t c n inbox = (0, inbox) := by
  intro n
  induction n with
  | zero => rfl
  | succ n ih =>
    simp [markProcessedRepeat, markProcessed_of_present h, ih]

/-- C7: starting from a store without the (tracking_id, consumer_id)
pair, the first MarkProcessed returns true and inserts the pair;
IsProcessed(tracking_id) then reports true; every later MarkProcessed
for the pair returns false and leaves the store unchanged, and over any
sequence of attempts exactly one receives true. -/
theorem markProcessed_exactly_once (now : Nat) (t c : String)
    (inbox : List InboxRecord) (habs : pairPresent t c inbox = false) :
    (markProcessed now t c inbox).1 = true ∧
    (markProcessed now t c inbox).2 =
      inbox ++ [{ trackingId := t, consumerId := c, processedAt := now }] ∧
    isProcessed t (markProcessed now t c inbox).2 = true ∧
    (∀ now₂, markProcessed now₂ t c (markProcessed now t c inbox).2 =
      (false, (markProcessed now t c inbox).2)) ∧
    (∀ n, (markProcessedRepeat now t c (n + 1) inbox).1 = 1) := by
  have hfst : markProcessed now t c inbox =
      (true, inbox ++ [{ trackingId := t, consumerId := c, processedAt := now }]) := by
    simp [markProcessed, habs]
  have hpres : pairPresent t c (markProcessed now t c inbox).2 = true := by
    rw [hfst]
    simp [pairPresent]
  refine ⟨by rw [hfst], by rw [hfst], ?_, ?_, ?_⟩
  · rw [hfst]
    simp [isProcessed]
  · intro now₂
    exact markProcessed_of_present hpres
  · intro n
    have : markProcessedRepeat now t c (n + 1) inbox =
        ((if (markProcessed now t c inbox).1 then 1 else 0) +
          (markProcessedRepeat now t c n (markProcessed now t c inbox).2).1,
         (markProcessedRepeat now t c n (markProcessed now t c inbox).2).2) := rfl
    rw [this, markProcessedRepeat_of_present hpres n, hfst]
    simp

/-- Witness for C7: three attempts on an empty inbox yield exactly one
true. -/
theorem markProcessed_exactly_once_witness :
    (markProcessedRepeat 5 "t6" "svc" 3 []).1 = 1 :=
  (markProcessed_exactly_once 5 "t6" "svc" [] (by decide)).2.2.2.2 2

/-! ### C9: backlog utilization -/

/-- BacklogLimiter.getUtilization:
Math.min(100, (currentSize / maxBacklogSize) * 100). -/
def getUtilization (pending maxBacklogSize : ℚ) : ℚ :=
  min 100 (pending / maxBacklogSize * 100)

/-- MetricsCollector.collect's backlogUtilizationPercent:
Math.min(100, (pendingTotal / maxBacklogSize) * 100). -/
def collectBacklogUtilization (pendingTotal maxBacklogSize : ℚ) : ℚ :=
  min 100 (pendingTotal / maxBacklogSize * 100)

/-- Counterexample for C9 as stated: with 2 pending events and
max_backlog_size 1 the claim demands 100 * 2 / 1 = 200, but both code
paths cap the value with Math.min(100, ...) and report 100. -/
theorem utilization_claim_counterexample :
    getUtilization 2 1 ≠ 100 * 2 / 1 ∧ collectBacklogUtilization 2 1 ≠ 100 * 2 / 1 := by
  constructor <;>
    · simp only [getUtilization, collectBacklogUtilization]
      norm_num

/-- C9 (amended): both reported utilizations equal
min(100, 100 * pending / max): they agree with 100 * pending / max when
pending ≤ max, and are capped at 100 — they do not exceed 100 — when
pending > max. -/
theorem utilization_correct (p m : ℚ) (hm : 0 < m) :
    getUtilization p m = min 100 (100 * p / m) ∧
    collectBacklogUtilization p m = min 100 (100 * p / m) ∧
    (p ≤ m → getUtilization p m = 100 * p / m) ∧
    (m < p → getUtilization p m = 100) := by
  have hrw : p / m * 100 = 100 * p / m := by
    ring
  refine ⟨?_, ?_, ?_, ?_⟩
  · rw [getUtilization, hrw]
  · rw [collectBacklogUtilization, hrw]
  · intro hpm
    rw [getUtilization, hrw]
    apply min_eq_right
    rw [div_le_iff₀ hm]
    nlinarith
  · intro hmp
    rw [getUtilization, hrw]
    apply min_eq_left
    rw [le_div_iff₀ hm]
    nlinarith

/-- Witness for the amended C9: 50 pending of 100 allowed is 50
percent. -/
theorem utilization_correct_witness :
    getUtilization 50 100 = 100 * 50 / 100 :=
  (utilization_correct 50 100 (by norm_num)).2.2.1 (by norm_num)

/-! ### C10: lock-token generation -/

/-- Construction-time environment: the wall clock in milliseconds and
the floor of Math.random() * 1000. -/
structure TokenEnv where
  nowMs : Nat
  randFloor : Fin 1000
deriving DecidableEq, Repr

/-- ProcessOutboxUseCase constructor: lockToken = BigInt(Date.now());
the random draw is never consulted. -/
def processOutboxLockToken (env : TokenEnv) : Nat := env.nowMs

/-- OutboxWorker constructor: workerId = BigInt(Date.now()) * 1000n +
BigInt(Math.floor(Math.random() * 1000)). -/
def outboxWorkerId (env : TokenEnv) : Nat :=
  env.nowMs * 1000 + env.randFloor.val

/-- C10: the use-case lock token is a deterministic function of the
clock reading alone — equal clock readings give equal tokens whatever
the random draws — while the worker id is the millisecond times 1000
plus a random value below 1000, and genuinely depends on the draw. -/
theorem lockToken_generation (c₁ c₂ : TokenEnv) :
    (c₁.nowMs = c₂.nowMs → processOutboxLockToken c₁ = processOutboxLockToken c₂) ∧
    (outboxWorkerId c₁ = c₁.nowMs * 1000 + c₁.randFloor.val ∧ c₁.randFloor.val < 1000) ∧
    (∃ e₁ e₂ : TokenEnv, e₁.nowMs = e₂.nowMs ∧ outboxWorkerId e₁ ≠ outboxWorkerId e₂) :=
  ⟨fun h => h,
   ⟨rfl, c₁.randFloor.isLt⟩,
   ⟨{ nowMs := 0, randFloor := 0 }, { nowMs := 0, randFloor := 1 }, rfl, by decide⟩⟩

/-- Witness for C10: two construction environments sharing the clock
reading but differing in the random draw give the same use-case lock
token. -/
theorem lockToken_generation_witness :
    processOutboxLockToken { nowMs := 5, randFloor := 3 } =
      processOutboxLockToken { nowMs := 5, randFloor := 7 } :=
  (lockToken_generation { nowMs := 5, randFloor := 3 }
    { nowMs := 5, randFloor := 7 }).1 rfl

/-! ### C8: findRecent pagination with hasMore -/

/-- ORDER BY id ascending. -/
def idLE (a b : Row) : Prop := a.id ≤ b.id

instance : DecidableRel idLE := fun a b => Nat.decLe a.id b.id

instance : IsTotal Row idLE := ⟨fun a b => Nat.le_total a.id b.id⟩

instance : IsTrans Row idLE := ⟨fun _ _ _ hab hbc => Nat.le_trans hab hbc⟩

/-- ORDER BY id descending. -/
def idGE (a b : Row) : Prop := b.id ≤ a.id

instance : DecidableRel idGE := fun a b => Nat.decLe b.id a.id

instance : IsTotal Row idGE := ⟨fun a b => Nat.le_total b.id a.id⟩

instance : IsTrans Row idGE := ⟨fun _ _ _ hab hbc => Nat.le_trans hbc hab⟩

/-- JS truthiness of the optional bigint cursor in findRecent: both
undefined and 0n are falsy, so "if (options.after)" skips the clause
for a zero cursor. -/
def cursorTruthy : Option Nat → Bool
  | none => false
  | some a => decide (a ≠ 0)

/-- The id > after clause, added only for a truthy cursor. -/
def afterCond (after : Option Nat) (r : Row) : Bool :=
  match after with
  | none => true
  | some a => if a = 0 then true else decide (a < r.id)

/-- The id < before clause, added only for a truthy cursor. -/
def beforeCond (before : Option Nat) (r : Row) : Bool :=
  match before with
  | none => true
  | some b => if b = 0 then true else decide (r.id < b)

/-- PostgresOutboxRepository.findRecent: optional cursor clauses; with
a truthy after the rows are sorted by id ascending, limited, and then
reversed, otherwise sorted descending and limited. -/
def findRecent (limit : Nat) (after before : Option Nat) (table : Table) : List Row :=
  let filtered := table.filter (fun r => afterCond after r && beforeCond before r)
  if cursorTruthy after then
    ((List.insertionSort idLE filtered).take limit).reverse
  else
    (List.insertionSort idGE filtered).take limit

/-- DashboardApi.getRecentEvents: the requested limit defaults to 8
when zero (JS ||), fetches limit + 1 rows, reports hasMore when the
extra row came back, and drops the extra row — the newest one in
after-mode, the oldest one otherwise. -/
def getRecentEvents (requestedLimit : Nat) (after before : Option Nat)
    (table : Table) : List Row × Bool :=
  let limit := if requestedLimit = 0 then 8 else requestedLimit
  let events := findRecent (limit + 1) after before table
  let hasMore := decide (limit < events.length)
  ( if hasMore then (if after.isSome then events.drop 1 else events.take limit)
    else events,
    hasMore )

theorem strict_of_sorted_nodup_asc {l : List Row}
    (hs : List.Pairwise idLE l) (hn : (l.map (fun r => r.id)).Nodup) :
    List.Pairwise (fun a b => a.id < b.id) l := by
  have hne : List.Pairwise (fun a b : Row => a.id ≠ b.id) l := by
    simpa [List.Nodup, List.pairwise_map] using hn
  exact (hs.and hne).imp (fun h => lt_of_le_of_ne h.1 h.2)

theorem strict_of_sorted_nodup_desc {l : List Row}
    (hs : List.Pairwise idGE l) (hn : (l.map (fun r => r.id)).Nodup) :
    List.Pairwise (fun a b => b.id < a.id) l := by
  have hne : List.Pairwise (fun a b : Row => a.id ≠ b.id) l := by
    simpa [List.Nodup, List.pairwise_map] using hn
  exact (hs.and hne).imp (fun h => lt_of_le_of_ne h.1 (Ne.symm h.2))

/-- The dashboard slice step: given the fetched page (strictly
descending, over-fetched by one, complete when short), dropping the
extra row yields at most N rows and hasMore is correct. -/
theorem dashboardSlice_correct {table : Table} {X N : Nat} {events : List Row}
    (hmem : ∀ q ∈ events, q ∈ table ∧ X < q.id)
    (hsorted : List.Pairwise (fun a b => b.id < a.id) events)
    (hlen : events.length ≤ N + 1)
    (hcomplete : events.length ≤ N → ∀ r ∈ table, X < r.id → r ∈ events) :
    (if N < events.length then events.drop 1 else events).length ≤ N ∧
    (∀ q ∈ (if N < events.length then events.drop 1 else events), X < q.id) ∧
    List.Pairwise (fun a b => b.id < a.id)
      (if N < events.length then events.drop 1 else events) ∧
    ((N < events.length) ↔
      ∃ r ∈ table, X < r.id ∧
        r ∉ (if N < events.length then events.drop 1 else events)) := by
  by_cases hm : N < events.length
  · simp only [if_pos hm]
    refine ⟨?_, ?_, ?_, ?_⟩
    · rw [List.length_drop]
      omega
    · intro q hq
      exact (hmem q (List.mem_of_mem_drop hq)).2
    · exact hsorted.sublist (List.drop_sublist 1 events)
    · constructor
      · intro _
        cases events with
        | nil => exact absurd hm (by simp)
        | cons h t =>
          have hh := hmem h (List.mem_cons_self h t)
          have hlt : ∀ b ∈ t, b.id < h.id := (List.pairwise_cons.1 hsorted).1
          exact ⟨h, hh.1, hh.2, fun ht => absurd (hlt h ht) (lt_irrefl h.id)⟩
      · intro _
        exact hm
  · simp only [if_neg hm]
    have hle : events.length ≤ N := Nat.not_lt.1 hm
    refine ⟨hle, fun q hq => (hmem q hq).2, hsorted, ?_⟩
    constructor
    · intro h
      exact absurd h hm
    · rintro ⟨r, hr, hX, hnot⟩
      exact absurd (hcomplete hle r hr hX) hnot

/-- C8 (amended): for every limit N ≥ 1 and cursor X over a table with
unique positive ids, the after-mode page built on findRecent returns at
most N rows, all with id > X, in strictly descending id order, and
hasMore is true iff a further row with id > X existed outside the
returned page.  N = 0 is excluded: the dashboard endpoint coerces a
zero limit to the default 8 (JS ||) — see the counterexample. -/
theorem getRecentEvents_after_correct (X N : Nat) (table : Table) (hN : 1 ≤ N)
    (hids : (table.map (fun r => r.id)).Nodup)
    (hpos : ∀ r ∈ table, 1 ≤ r.id) :
    ((getRecentEvents N (some X) none table).1.length ≤ N) ∧
    (∀ q ∈ (getRecentEvents N (some X) none table).1, X < q.id) ∧
    List.Pairwise (fun a b => b.id < a.id) (getRecentEvents N (some X) none table).1 ∧
    ((getRecentEvents N (some X) none table).2 = true ↔
      ∃ r ∈ table, X < r.id ∧ r ∉ (getRecentEvents N (some X) none table).1) := by
  have hNne : ¬(N = 0) := by omega
  have hpair : getRecentEvents N (some X) none table =
      (if N < (findRecent (N + 1) (some X) none table).length
        then (findRecent (N + 1) (some X) none table).drop 1
        else findRecent (N + 1) (some X) none table,
       decide (N < (findRecent (N + 1) (some X) none table).length)) := by
    simp [getRecentEvents, hNne]
  suffices h : (∀ q ∈ findRecent (N + 1) (some X) none table, q ∈ table ∧ X < q.id) ∧
      List.Pairwise (fun a b => b.id < a.id) (findRecent (N + 1) (some X) none table) ∧
      (findRecent (N + 1) (some X) none table).length ≤ N + 1 ∧
      ((findRecent (N + 1) (some X) none table).length ≤ N →
        ∀ r ∈ table, X < r.id → r ∈ findRecent (N + 1) (some X) none table) by
    obtain ⟨hmem, hsorted, hlen, hcomplete⟩ := h
    obtain ⟨h1, h2, h3, h4⟩ := dashboardSlice_correct hmem hsorted hlen hcomplete
    rw [hpair]
    refine ⟨h1, h2, h3, ?_⟩
    rw [decide_eq_true_iff]
    exact h4
  by_cases hX : X = 0
  · subst hX
    have htr : cursorTruthy (some 0) = false := by
      simp [cursorTruthy]
    have hfl : table.filter (fun r => afterCond (some 0) r && beforeCond none r) =
        table := by
      apply List.filter_eq_self.2
      intro r _
      simp [afterCond, beforeCond]
    have hfr : findRecent (N + 1) (some 0) none table =
        (List.insertionSort idGE table).take (N + 1) := by
      rw [findRecent, htr]
      rw [hfl]
      rfl
    have hns : ((List.insertionSort idGE table).map (fun r => r.id)).Nodup :=
      ((List.perm_insertionSort idGE table).map _).nodup_iff.2 hids
    have hstrict : List.Pairwise (fun a b => b.id < a.id)
        (List.insertionSort idGE table) :=
      strict_of_sorted_nodup_desc (List.sorted_insertionSort idGE table) hns
    refine ⟨?_, ?_, ?_, ?_⟩
    · intro q hq
      rw [hfr] at hq
      have hq2 : q ∈ table :=
        (List.mem_insertionSort idGE).1 (List.mem_of_mem_take hq)
      exact ⟨hq2, hpos q hq2⟩
    · rw [hfr]
      exact hstrict.sublist (List.take_sublist _ _)
    · rw [hfr, List.length_take]
      exact min_le_left _ _
    · intro hle r hr _
      have hlen_eq : (findRecent (N + 1) (some 0) none table).length =
          min (N + 1) table.length := by
        rw [hfr, List.length_take, List.length_insertionSort]
      rw [hlen_eq] at hle
      have hL : table.length ≤ N := by
        by_cases hc : table.length ≤ N
        · exact hc
        · exfalso
          have hmin : min (N + 1) table.length = N + 1 := min_eq_left (by omega)
          omega
      have htk : (List.insertionSort idGE table).take (N + 1) =
          List.insertionSort idGE table :=
        List.take_of_length_le (by rw [List.length_insertionSort]; omega)
      rw [hfr, htk, List.mem_insertionSort]
      exact hr
  · have htr : cursorTruthy (some X) = true := by
      simp [cursorTruthy, hX]
    have hpred : ∀ r ∈ table,
        (afterCond (some X) r && beforeCond none r) = decide (X < r.id) := by
      intro r _
      simp [afterCond, beforeCond, hX]
    have hfl : table.filter (fun r => afterCond (some X) r && beforeCond none r) =
        table.filter (fun r => decide (X < r.id)) :=
      List.filter_congr hpred
    have hfr : findRecent (N + 1) (some X) none table =
        ((List.insertionSort idLE
          (table.filter (fun r => decide (X < r.id)))).take (N + 1)).reverse := by
      rw [findRecent, htr]
      rw [hfl]
      rw [if_pos rfl]
    have hmemFL : ∀ {q : Row},
        q ∈ table.filter (fun r => decide (X < r.id)) ↔ (q ∈ table ∧ X < q.id) := by
      intro q
      rw [List.mem_filter]
      simp
    have hnf : ((table.filter (fun r => decide (X < r.id))).map (fun r => r.id)).Nodup :=
      hids.sublist ((List.filter_sublist _).map _)
    have hns : ((List.insertionSort idLE
        (table.filter (fun r => decide (X < r.id)))).map (fun r => r.id)).Nodup :=
      ((List.perm_insertionSort idLE _).map _).nodup_iff.2 hnf
    have hstrict : List.Pairwise (fun a b => a.id < b.id)
        (List.insertionSort idLE (table.filter (fun r => decide (X < r.id)))) :=
      strict_of_sorted_nodup_asc (List.sorted_insertionSort idLE _) hns
    refine ⟨?_, ?_, ?_, ?_⟩
    · intro q hq
      rw [hfr, List.mem_reverse] at hq
      exact hmemFL.1 ((List.mem_insertionSort idLE).1 (List.mem_of_mem_take hq))
    · rw [hfr, List.pairwise_reverse]
      exact hstrict.sublist (List.take_sublist _ _)
    · rw [hfr, List.length_reverse, List.length_take]
      exact min_le_left _ _
    · intro hle r hr hXr
      have hlen_eq : (findRecent (N + 1) (some X) none table).length =
          min (N + 1) (table.filter (fun r => decide (X < r.id))).length := by
        rw [hfr, List.length_reverse, List.length_take, List.length_insertionSort]
      rw [hlen_eq] at hle
      have hL : (table.filter (fun r => decide (X < r.id))).length ≤ N := by
        by_cases hc : (table.filter (fun r => decide (X < r.id))).length ≤ N
        · exact hc
        · exfalso
          have hmin : min (N + 1) (table.filter (fun r => decide (X < r.id))).length =
              N + 1 := min_eq_left (by omega)
          omega
      have htk : (List.insertionSort idLE
          (table.filter (fun r => decide (X < r.id)))).take (N + 1) =
          List.insertionSort idLE (table.filter (fun r => decide (X < r.id))) :=
        List.take_of_length_le (by rw [List.length_insertionSort]; omega)
      rw [hfr, htk, List.mem_reverse, List.mem_insertionSort]
      exact hmemFL.2 ⟨hr, hXr⟩

/-- Counterexample for C8 as stated at limit N = 0: the endpoint
replaces a zero limit with the default 8 and returns one row from a
one-row table, so "at most N rows" fails. -/
theorem getRecentEvents_claim_counterexample :
    ¬ ((getRecentEvents 0 (some 1) none [pendingRowB]).1.length ≤ 0) := by
  decide

/-- Witness for the amended C8 on a concrete two-row table. -/
theorem getRecentEvents_after_correct_witness :
    (getRecentEvents 1 (some 1) none [pendingRowA, pendingRowB]).1.length ≤ 1 ∧
    ∀ q ∈ (getRecentEvents 1 (some 1) none [pendingRowA, pendingRowB]).1, 1 < q.id :=
  ⟨(getRecentEvents_after_correct 1 1 [pendingRowA, pendingRowB]
      (by decide) (by decide) (by decide)).1,
   (getRecentEvents_after_correct 1 1 [pendingRowA, pendingRowB]
      (by decide) (by decide) (by decide)).2.1⟩

end PgOutbox
